import Mathlib

set_option maxHeartbeats 1000000

/-!
Verification development for the resume-customizer pipeline (src/main.py).

The Python source is shallowly embedded: each `re.sub` pass of
`convert_markdown_to_latex` is modelled by a total, structurally recursive
character scanner with leftmost-first, lazy-quantifier semantics matching the
Python regular expressions; `prompt_model` is modelled as a fold over the
observable outcomes of the underlying service calls; the per-section loop of
`main` is modelled as a recursion over the section list that threads the
in-memory section state exactly as the mutating Python loop does.
-/

namespace ResumeCustomizer

/-! Character constants (brace and backtick written via code points). -/

def btick : Char := Char.ofNat 96

def star : Char := '*'

def hsh : Char := '#'

def lf : Char := '\n'

def bslash : Char := '\\'

def pct : Char := '%'

def lb : Char := Char.ofNat 123

def rb : Char := Char.ofNat 125

/-- Opening of the texttt wrapper, `\texttt` followed by a left brace. -/
def textttO : List Char := bslash :: 't' :: 'e' :: 'x' :: 't' :: 't' :: 't' :: [lb]

/-- Opening of the textbf wrapper, `\textbf` followed by a left brace. -/
def textbfO : List Char := bslash :: 't' :: 'e' :: 'x' :: 't' :: 'b' :: 'f' :: [lb]

/-- Opening of the textit wrapper, `\textit` followed by a left brace. -/
def textitO : List Char := bslash :: 't' :: 'e' :: 'x' :: 't' :: 'i' :: 't' :: [lb]

/-- Pass 1 of `convert_markdown_to_latex`: models
`re.sub(r"`([^`]+?)`", r"\\texttt{\1}", text)`.
The second argument is `none` outside a candidate match and `some acc` after an
opening backtick, where `acc` is the (backtick-free) content scanned so far.
An adjacent closing backtick with empty content is not a match (the `+`
quantifier needs at least one character), in which case the engine retries at
the next position, and an opening backtick with no closing backtick is emitted
verbatim. -/
def scanCode : List Char → Option (List Char) → List Char
  | [], none => []
  | [], some acc => btick :: acc
  | c :: rest, none =>
      if c = btick then scanCode rest (some [])
      else c :: scanCode rest none
  | c :: rest, some acc =>
      if c = btick then
        if acc = [] then btick :: scanCode rest (some [])
        else textttO ++ acc ++ rb :: scanCode rest none
      else scanCode rest (some (acc ++ [c]))

/-- Pass 2: models `re.sub(r"\*\*(.+?)\*\*", r"\\textbf{\1}", text)`.
State `some acc` means a `**` opener has been consumed and `acc` is the content
matched by the lazy `(.+?)` so far.  A `**` closes the span as soon as the
content is non-empty (lazy semantics); `.` does not match a newline, so a
newline aborts the candidate match, and an aborted or unfinished candidate is
emitted verbatim (no match starting inside the aborted region can succeed,
since the forward scan found no eligible closing `**` before the blocker). -/
def scanBold : List Char → Option (List Char) → List Char
  | [], none => []
  | [], some acc => star :: star :: acc
  | [c], none => [c]
  | [c], some acc => star :: star :: acc ++ [c]
  | c :: d :: rest, none =>
      if c = star ∧ d = star then scanBold rest (some [])
      else c :: scanBold (d :: rest) none
  | c :: d :: rest, some acc =>
      if c = star ∧ d = star ∧ acc ≠ [] then
        textbfO ++ acc ++ rb :: scanBold rest none
      else if c = lf then
        star :: star :: acc ++ lf :: scanBold (d :: rest) none
      else scanBold (d :: rest) (some (acc ++ [c]))

/-- Pass 3: models
`re.sub(r"(?<!\*)\*(?!\*)(.+?)(?<!\*)\*(?!\*)", r"\\textit{\1}", text)`.
The `prev` argument is the character preceding the scan position in the
original text (for the lookbehinds); state `some acc` means an isolated `*`
opener has been consumed with lazy content `acc` so far.  A `*` closes the span
when the previous content character and the following character are not `*`;
a `*` failing the lookarounds joins the content; a newline aborts the
candidate, which is then emitted verbatim. -/
def scanItalic : List Char → Option Char → Option (List Char) → List Char
  | [], _, none => []
  | [], _, some acc => star :: acc
  | c :: rest, prev, none =>
      if c = star ∧ prev ≠ some star ∧ rest.head? ≠ some star then
        scanItalic rest none (some [])
      else c :: scanItalic rest (some c) none
  | c :: rest, _, some acc =>
      if c = lf then star :: acc ++ lf :: scanItalic rest (some lf) none
      else if c = star ∧ acc.getLast? ≠ some star ∧ rest.head? ≠ some star ∧ acc ≠ [] then
        textitO ++ acc ++ rb :: scanItalic rest (some star) none
      else scanItalic rest none (some (acc ++ [c]))

/-- Pass 4: models `re.sub(r"(?<!\\)#(.*)", r"%\1", text)`.
A `#` not preceded by a backslash is replaced by `%` and the rest of the line
(matched by `(.*)`, which stops before a newline) is emitted verbatim; the
third argument is `true` while inside that verbatim remainder-of-line mode. -/
def scanHash : List Char → Option Char → Bool → List Char
  | [], _, _ => []
  | c :: rest, _, true =>
      if c = lf then c :: scanHash rest (some lf) false
      else c :: scanHash rest none true
  | c :: rest, prev, false =>
      if c = hsh ∧ prev ≠ some bslash then pct :: scanHash rest none true
      else c :: scanHash rest (some c) false

/-- Model of `convert_markdown_to_latex` from src/main.py: the four `re.sub`
passes applied in source order (inline code, bold, italic, hash-to-percent). -/
def convert_markdown_to_latex (s : String) : String :=
  String.mk (scanHash (scanItalic (scanBold (scanCode s.data none) none) none none) none false)

/-! ### The per-section loop of `main` -/

/-- Split a character list at every newline (the fields of `str.split("\n")`). -/
def splitLF : List Char → List (List Char)
  | [] => [[]]
  | c :: rest =>
      if c = lf then [] :: splitLF rest
      else
        match splitLF rest with
        | f :: fs => (c :: f) :: fs
        | [] => [[c]]

/-- Model of Python `str.splitlines` for strings whose only line breaks are
`\n` (the strings handled by the pipeline): split at `\n`, without a trailing
empty line when the string ends in `\n`, and `[]` for the empty string. -/
def splitlinesData (cs : List Char) : List (List Char) :=
  if cs.isEmpty then []
  else if cs.getLast? = some lf then (splitLF cs).dropLast
  else splitLF cs

/-- `sep.join(l)`. -/
def joinSep (sep : List Char) : List (List Char) → List Char
  | [] => []
  | [x] => x
  | x :: y :: rest => x ++ sep ++ joinSep sep (y :: rest)

/-- Model of `"\n".join(output.splitlines()[1:-1])` from `main`: drop the first
and last line, keep the rest joined by `\n`. -/
def stripFence (s : String) : String :=
  String.mk (joinSep [lf] (((splitlinesData s.data).drop 1).dropLast))

/-- A résumé section as `main` sees it: the `description` field and the mutable
`latex_content` (called `content` here).  The `dataclass` equality of the
Python `ResumeSection` compares fields, which for our purposes is determined by
these two (output path and extra instructions are functions of `description`
in `main`'s fixed section list). -/
structure RSection where
  description : String
  content : String
deriving DecidableEq, Repr

/-- Model of `"\n\n".join(f"{s.latex_content}" for s in sections if s != section)`. -/
def otherSections (secs : List RSection) (cur : RSection) : String :=
  String.mk (joinSep [lf, lf] ((secs.filter (fun s => s != cur)).map (·.content.data)))

/-- What one iteration of the section loop records: the "other sections"
snapshot used in the prompt, the content committed to the in-memory section
(`section.latex_content = output`), and the text written to the section's
output file (`"\n".join(output.splitlines()[1:-1])`). -/
structure StepLog where
  snapshot : String
  committed : String
  written : String
deriving DecidableEq, Repr

/-- Model of the `for section in sections:` loop of `main` for a run in which
every generation succeeds, with `rs` the raw model responses in order.
`done` is the already-processed prefix (carrying its committed contents, since
the Python loop mutates the shared list in place) and `todo` the rest; the
full list visible to the snapshot at each step is `done ++ todo`. -/
def runLoop : List RSection → List RSection → List String → List RSection × List StepLog
  | done, [], _ => (done, [])
  | done, t :: ts, [] => (done ++ t :: ts, [])
  | done, cur :: ts, r :: rs =>
      let snap := otherSections (done ++ cur :: ts) cur
      let out := convert_markdown_to_latex r
      let res := runLoop (done ++ [{ cur with content := out }]) ts rs
      (res.1, ⟨snap, out, stripFence out⟩ :: res.2)

/-- The sections of a prefix updated with the normalized responses, in order;
used to state what the loop state looks like after `m` successful steps. -/
def updZip : List RSection → List String → List RSection
  | [], _ => []
  | s :: ss, [] => s :: ss
  | s :: ss, r :: rs => { s with content := convert_markdown_to_latex r } :: updZip ss rs

/-! ### `prompt_model` -/

/-- Observable outcome of one `client.models.generate_content` call:
either the call raised, or it returned a response whose `.text` is `t`
(`none` models an absent text). -/
inductive GenAttempt where
  | err : GenAttempt
  | ok : Option String → GenAttempt
deriving DecidableEq, Repr

/-- Python truthiness of `response.text`: a present, non-empty string. -/
def textFull : Option String → Bool
  | some s => s ≠ ""
  | none => false

/-- The retry loop of `prompt_model`: `i` is the 0-indexed attempt counter and
`resp` the current value of the `response` variable (`none` = still `None`).
Returns (number of attempts actually made, waits performed before each attempt
in order, final value of `response`).  Each attempt is preceded by
`sleep(2 * i)`; a truthy `response.text` breaks out of the loop; an exception
leaves `response` unchanged; a falsy text leaves the loop running with
`response` set to that response. -/
def pmGo : List GenAttempt → Nat → Option (Option String) → Nat × List Nat × Option (Option String)
  | [], _, resp => (0, [], resp)
  | a :: rest, i, resp =>
      match a with
      | .err =>
          let r := pmGo rest (i + 1) resp
          (r.1 + 1, 2 * i :: r.2.1, r.2.2)
      | .ok t =>
          if textFull t then (1, [2 * i], some t)
          else
            let r := pmGo rest (i + 1) (some t)
            (r.1 + 1, 2 * i :: r.2.1, r.2.2)

/-- The exception message raised by `prompt_model` on exhaustion. -/
def genErrMsg : String := "Gemini API query returned no response"

/-- How `prompt_model` ends: raising an exception or returning a text. -/
inductive PMResult where
  | raised : String → PMResult
  | returned : String → PMResult
deriving DecidableEq, Repr

/-- The final `if response is None or not response.text: raise ...` followed by
`return response.text`. -/
def finishPM : Option (Option String) → PMResult
  | some (some s) => if s = "" then .raised genErrMsg else .returned s
  | some none => .raised genErrMsg
  | none => .raised genErrMsg

/-- `prompt_model` with the `max_tries` bound as a parameter: the service
behaviour `b` gives the outcome of the `i`-th call, were it made. -/
def prompt_model_with (maxTries : Nat) (b : Nat → GenAttempt) :
    Nat × List Nat × PMResult :=
  let r := pmGo ((List.range maxTries).map b) 0 none
  (r.1, r.2.1, finishPM r.2.2)

/-- The hard-coded `max_tries = 5` of `prompt_model`. -/
def max_tries : Nat := 5

/-- Model of `prompt_model` from src/main.py. -/
def prompt_model (b : Nat → GenAttempt) : Nat × List Nat × PMResult :=
  prompt_model_with max_tries b

/-- An attempt that satisfies the `if response.text: break` test. -/
def goodAttempt : GenAttempt → Bool
  | .err => false
  | .ok t => textFull t

/-! ### `compile_latex` -/

/-- Model of `pathlib`'s `with_suffix(".pdf")` for the paths `compile_latex`
receives: replace the extension of the final path component (the part from its
last dot, when that dot is not the leading character) by `.pdf`. -/
def withSuffixPdf (p : String) : String :=
  let cs := p.data
  let name := (cs.reverse.takeWhile (fun c => c ≠ '/')).reverse
  let dir := cs.take (cs.length - name.length)
  let stem := if '.' ∈ name.drop 1 then ((name.reverse.dropWhile (fun c => c ≠ '.')).drop 1).reverse else name
  String.mk (dir ++ stem ++ ('.' :: 'p' :: 'd' :: 'f' :: []))

/-- Model of `compile_latex` from src/main.py.  `exitStatus` is the value
`os.system(...)` returned (0 on success of the toolchain).  The source binds it
to a variable named `success` and then runs `if not success: return None`, so
the function returns `None` exactly when the exit status is zero. -/
def compile_latex (texPath : String) (exitStatus : Nat) : Option String :=
  if exitStatus = 0 then none
  else some (withSuffixPdf texPath)

/-! ### The listing-cache refresh at the top of `main` -/

/-- Outcome of `get_listing_text(url)`: the fetched text, or an exception. -/
inductive FetchOutcome where
  | ok : String → FetchOutcome
  | raises : FetchOutcome
deriving DecidableEq, Repr

/-- How the run continues after the cache-refresh phase. -/
inductive RunPhase where
  | proceed : String → RunPhase
  | errValidation : RunPhase
  | errNotFound : RunPhase
  | errFetch : RunPhase
deriving DecidableEq, Repr

/-- `listing.encode("ascii", errors="ignore").decode("ascii")`. -/
def asciiOnly (s : String) : String :=
  String.mk (s.data.filter (fun c => c.toNat < 128))

/-- Model of the cache-refresh phase of `main`.  `cache` is the content of
`listing.txt` (`none` = the file does not exist).  With a URL argument the
source first raises `ValueError` if the argument does not start with "http",
then unlinks any existing cache file, then `open(listing_file, "w")` creates
the file truncated to empty, and only then evaluates
`get_listing_text(sys.argv[1])` as the argument of `f.write`; so when the
fetch raises, the run halts with the cache file present but empty.  Without an
argument, a missing cache file raises `FileNotFoundError`; otherwise the file
is read and non-ascii characters are stripped. -/
def refreshListing (arg : Option String) (fetch : FetchOutcome) (cache : Option String) :
    Option String × RunPhase :=
  match arg with
  | some url =>
      if "http".data.isPrefixOf url.data then
        match fetch with
        | .raises => (some "", .errFetch)
        | .ok t => (some t, .proceed (asciiOnly t))
      else (cache, .errValidation)
  | none =>
      match cache with
      | none => (none, .errNotFound)
      | some t => (some t, .proceed (asciiOnly t))

/-! ### Markdown span sequences (for the normalization claims) -/

/-- A character with no role in any of the four rewrite rules. -/
def plainCharB (c : Char) : Bool :=
  c ≠ btick && c ≠ star && c ≠ hsh && c ≠ lf

/-- One item of a markdown text made of balanced, non-nested spans. -/
inductive Span where
  | plain : Char → Span
  | code : List Char → Span
  | bold : List Char → Span
  | italic : List Char → Span
deriving DecidableEq, Repr

/-- The markdown source text of one span. -/
def renderSpan : Span → List Char
  | .plain c => [c]
  | .code s => btick :: s ++ [btick]
  | .bold s => star :: star :: s ++ [star, star]
  | .italic s => star :: s ++ [star]

/-- The markdown source text of a span sequence. -/
def renderMd (l : List Span) : List Char :=
  (l.map renderSpan).flatten

/-- Span sequence after pass 1 (inline code rewritten). -/
def renderSpan1 : Span → List Char
  | .plain c => [c]
  | .code s => textttO ++ s ++ [rb]
  | .bold s => star :: star :: s ++ [star, star]
  | .italic s => star :: s ++ [star]

def renderMd1 (l : List Span) : List Char :=
  (l.map renderSpan1).flatten

/-- Span sequence after pass 2 (bold also rewritten). -/
def renderSpan2 : Span → List Char
  | .plain c => [c]
  | .code s => textttO ++ s ++ [rb]
  | .bold s => textbfO ++ s ++ [rb]
  | .italic s => star :: s ++ [star]

def renderMd2 (l : List Span) : List Char :=
  (l.map renderSpan2).flatten

/-- The expected LaTeX text: one wrapper per span, content verbatim. -/
def renderLatexSpan : Span → List Char
  | .plain c => [c]
  | .code s => textttO ++ s ++ [rb]
  | .bold s => textbfO ++ s ++ [rb]
  | .italic s => textitO ++ s ++ [rb]

def renderLatex (l : List Span) : List Char :=
  (l.map renderLatexSpan).flatten

/-- A well-formed span: non-empty content of plain characters. -/
def goodSpanB : Span → Bool
  | .plain c => plainCharB c
  | .code s => !s.isEmpty && s.all plainCharB
  | .bold s => !s.isEmpty && s.all plainCharB
  | .italic s => !s.isEmpty && s.all plainCharB

/-- Adjacency allowed between consecutive spans: an italic span must not be
directly followed by another asterisk-delimited span. -/
def sepB : Span → Span → Bool
  | .italic _, .bold _ => false
  | .italic _, .italic _ => false
  | _, _ => true

/-- All consecutive pairs of the sequence satisfy `sepB`. -/
def sepOk : List Span → Bool
  | a :: b :: rest => sepB a b && sepOk (b :: rest)
  | _ => true

/-- Does the sequence start with an italic span? (Openings of italic spans are
the only place pass 3 consults the preceding character.) -/
def headItalic : List Span → Bool
  | Span.italic _ :: _ => true
  | _ => false

/-! ## Scanner step lemmas -/

theorem scanCode_cons_ne {c : Char} (h : c ≠ btick) (t : List Char) :
    scanCode (c :: t) none = c :: scanCode t none := by
  simp [scanCode, h]

theorem scanCode_push {c : Char} (h : c ≠ btick) (t acc : List Char) :
    scanCode (c :: t) (some acc) = scanCode t (some (acc ++ [c])) := by
  simp [scanCode, h]

theorem scanCode_close {acc : List Char} (h : acc ≠ []) (t : List Char) :
    scanCode (btick :: t) (some acc) = textttO ++ acc ++ rb :: scanCode t none := by
  simp [scanCode, h]

theorem scanCode_front {p : List Char} (hp : ∀ c ∈ p, c ≠ btick) (t : List Char) :
    scanCode (p ++ t) none = p ++ scanCode t none := by
  induction p with
  | nil => simp
  | cons c p ih =>
      rw [List.cons_append, scanCode_cons_ne (hp c (by simp)),
        ih (fun x hx => hp x (by simp [hx]))]
      rfl

theorem scanCode_id {l : List Char} (h : ∀ c ∈ l, c ≠ btick) : scanCode l none = l := by
  induction l with
  | nil => rfl
  | cons c t ih =>
      rw [scanCode_cons_ne (h c (by simp)), ih (fun x hx => h x (by simp [hx]))]

theorem scanCode_content {s : List Char} (hs : ∀ c ∈ s, c ≠ btick) :
    ∀ acc t, acc ++ s ≠ [] →
      scanCode (s ++ btick :: t) (some acc) = textttO ++ (acc ++ s) ++ rb :: scanCode t none := by
  induction s with
  | nil =>
      intro acc t h
      simp only [List.append_nil] at h ⊢
      exact scanCode_close h t
  | cons c s ih =>
      intro acc t _
      rw [List.cons_append, scanCode_push (hs c (by simp)),
        ih (fun x hx => hs x (by simp [hx])) (acc ++ [c]) t (by simp)]
      simp

theorem scanBold_cons_ne {c : Char} (h : c ≠ star) (t : List Char) :
    scanBold (c :: t) none = c :: scanBold t none := by
  cases t with
  | nil => simp [scanBold]
  | cons d rest => simp [scanBold, h]

theorem scanBold_star_skip {t : List Char} (h : t.head? ≠ some star) :
    scanBold (star :: t) none = star :: scanBold t none := by
  cases t with
  | nil => simp [scanBold]
  | cons d rest =>
      have hd : d ≠ star := by simpa using h
      simp [scanBold, hd]

theorem scanBold_front {p : List Char} (hp : ∀ c ∈ p, c ≠ star) (t : List Char) :
    scanBold (p ++ t) none = p ++ scanBold t none := by
  induction p with
  | nil => simp
  | cons c p ih =>
      rw [List.cons_append, scanBold_cons_ne (hp c (by simp)),
        ih (fun x hx => hp x (by simp [hx]))]
      rfl

theorem scanBold_push {c : Char} (hc1 : c ≠ star) (hc2 : c ≠ lf) {t : List Char}
    (ht : t ≠ []) (acc : List Char) :
    scanBold (c :: t) (some acc) = scanBold t (some (acc ++ [c])) := by
  cases t with
  | nil => exact absurd rfl ht
  | cons d rest => simp [scanBold, hc1, hc2]

theorem scanBold_close {acc : List Char} (h : acc ≠ []) (t : List Char) :
    scanBold (star :: star :: t) (some acc) = textbfO ++ acc ++ rb :: scanBold t none := by
  simp [scanBold, h]

theorem scanBold_content {s : List Char} (hs : ∀ c ∈ s, c ≠ star ∧ c ≠ lf) :
    ∀ acc t, acc ++ s ≠ [] →
      scanBold (s ++ star :: star :: t) (some acc) =
        textbfO ++ (acc ++ s) ++ rb :: scanBold t none := by
  induction s with
  | nil =>
      intro acc t h
      simp only [List.append_nil] at h ⊢
      exact scanBold_close h t
  | cons c s ih =>
      intro acc t _
      rw [List.cons_append,
        scanBold_push (hs c (by simp)).1 (hs c (by simp)).2 (by simp) acc,
        ih (fun x hx => hs x (by simp [hx])) (acc ++ [c]) t (by simp)]
      simp

theorem scanBold_id {l : List Char} (h : l.count star ≤ 1) : scanBold l none = l := by
  induction l with
  | nil => rfl
  | cons c t ih =>
      have hcount : t.count star ≤ 1 := le_trans (by simp [List.count_cons]) h
      have step : scanBold (c :: t) none = c :: scanBold t none := by
        by_cases hc : c = star
        · subst hc
          apply scanBold_star_skip
          cases t with
          | nil => simp
          | cons d rest =>
              intro hd
              simp only [List.head?_cons, Option.some_inj] at hd
              rw [List.count_cons, List.count_cons, hd] at h
              simp at h
        · exact scanBold_cons_ne hc t
      rw [step, ih hcount]

theorem scanItalic_cons_ne {c : Char} (h : c ≠ star) (t : List Char) (p : Option Char) :
    scanItalic (c :: t) p none = c :: scanItalic t (some c) none := by
  simp [scanItalic, h]

theorem scanItalic_open {t : List Char} {p : Option Char} (hp : p ≠ some star)
    (ht : t.head? ≠ some star) :
    scanItalic (star :: t) p none = scanItalic t none (some []) := by
  simp [scanItalic, hp, ht]

theorem scanItalic_star_skip {t : List Char} {p : Option Char}
    (h : ¬(p ≠ some star ∧ t.head? ≠ some star)) :
    scanItalic (star :: t) p none = star :: scanItalic t (some star) none := by
  simp only [scanItalic]
  rw [if_neg (by simpa using h)]

theorem scanItalic_push {c : Char} (h1 : c ≠ lf) (h2 : c ≠ star) (t acc : List Char)
    (x : Option Char) :
    scanItalic (c :: t) x (some acc) = scanItalic t none (some (acc ++ [c])) := by
  simp [scanItalic, h1, h2]

theorem scanItalic_close {t acc : List Char} (h1 : acc.getLast? ≠ some star)
    (h2 : t.head? ≠ some star) (h3 : acc ≠ []) (x : Option Char) :
    scanItalic (star :: t) x (some acc) = textitO ++ acc ++ rb :: scanItalic t (some star) none := by
  have hlf : star ≠ lf := by decide
  simp [scanItalic, hlf, h1, h2, h3]

theorem scanItalic_content {s : List Char} (hs : ∀ c ∈ s, c ≠ star ∧ c ≠ lf) :
    ∀ acc t, acc ++ s ≠ [] → (acc ++ s).getLast? ≠ some star → t.head? ≠ some star →
      ∀ x, scanItalic (s ++ star :: t) x (some acc) =
        textitO ++ (acc ++ s) ++ rb :: scanItalic t (some star) none := by
  induction s with
  | nil =>
      intro acc t h1 h2 h3 x
      simp only [List.append_nil] at h1 h2 ⊢
      exact scanItalic_close h2 h3 h1 x
  | cons c s ih =>
      intro acc t h1 h2 h3 x
      rw [List.cons_append, scanItalic_push (hs c (by simp)).2 (hs c (by simp)).1,
        ih (fun y hy => hs y (by simp [hy])) (acc ++ [c]) t (by simp)
          (by simpa using h2) h3 none]
      simp

theorem scanItalic_id_nostar {l : List Char} (h : star ∉ l) :
    ∀ p, scanItalic l p none = l := by
  induction l with
  | nil => intro p; rfl
  | cons c t ih =>
      intro p
      have hc : c ≠ star := fun hc => h (by simp [hc])
      rw [scanItalic_cons_ne hc, ih (fun hx => h (by simp [hx]))]

theorem scanItalic_abort {l : List Char} :
    ∀ acc, star ∉ acc → star ∉ l → scanItalic l none (some acc) = star :: (acc ++ l) := by
  induction l with
  | nil => intro acc _ _; simp [scanItalic]
  | cons c t ih =>
      intro acc hacc hl
      have hc : c ≠ star := fun hc => hl (by simp [hc])
      by_cases hlf : c = lf
      · subst hlf
        have : scanItalic (lf :: t) none (some acc) =
            star :: acc ++ lf :: scanItalic t (some lf) none := by
          simp [scanItalic]
        rw [this, scanItalic_id_nostar (fun hx => hl (by simp [hx]))]
        simp
      · rw [scanItalic_push hlf hc,
          ih (acc ++ [c]) (by simp [hacc, Ne.symm hc]) (fun hx => hl (by simp [hx]))]
        simp

theorem scanItalic_id {l : List Char} (h : l.count star ≤ 1) :
    ∀ p, scanItalic l p none = l := by
  induction l with
  | nil => intro p; rfl
  | cons c t ih =>
      intro p
      have hcount : t.count star ≤ 1 := le_trans (by simp [List.count_cons]) h
      by_cases hc : c = star
      · subst hc
        have ht : star ∉ t := by
          rw [← List.count_eq_zero]
          rw [List.count_cons] at h
          simpa using h
        have hhead : t.head? ≠ some star := by
          cases t with
          | nil => simp
          | cons d rest =>
              intro hd
              simp only [List.head?_cons, Option.some_inj] at hd
              exact ht (by simp [hd])
        by_cases hp : p = some star
        · rw [scanItalic_star_skip (by simp [hp]), scanItalic_id_nostar ht]
        · rw [scanItalic_open hp hhead, scanItalic_abort [] (by simp) ht]
          simp
      · rw [scanItalic_cons_ne hc, ih hcount]

theorem scanHash_cons_ne {c : Char} (h : c ≠ hsh) (t : List Char) (p : Option Char) :
    scanHash (c :: t) p false = c :: scanHash t (some c) false := by
  simp [scanHash, h]

theorem scanHash_hit {t : List Char} {p : Option Char} (h : p ≠ some bslash) :
    scanHash (hsh :: t) p false = pct :: scanHash t none true := by
  simp [scanHash, h]

theorem scanHash_escaped (t : List Char) :
    scanHash (hsh :: t) (some bslash) false = hsh :: scanHash t (some hsh) false := by
  simp [scanHash]

theorem scanHash_skipline {l : List Char} (h : lf ∉ l) : ∀ p, scanHash l p true = l := by
  induction l with
  | nil => intro p; rfl
  | cons c t ih =>
      intro p
      have hc : c ≠ lf := fun hc => h (by simp [hc])
      simp only [scanHash, if_neg hc]
      rw [ih (fun hx => h (by simp [hx])) none]

theorem scanHash_id {l : List Char} (h : ∀ c ∈ l, c ≠ hsh) :
    ∀ p, scanHash l p false = l := by
  induction l with
  | nil => intro p; rfl
  | cons c t ih =>
      intro p
      rw [scanHash_cons_ne (h c (by simp)), ih (fun x hx => h x (by simp [hx]))]

/-- The last character of `l`, or `x` when `l` is empty (used to thread the
lookbehind character across a verbatim-emitted region). -/
def lastOr (x : Option Char) (l : List Char) : Option Char :=
  match l.getLast? with
  | some c => some c
  | none => x

theorem lastOr_cons (x : Option Char) (c : Char) (l : List Char) :
    lastOr x (c :: l) = lastOr (some c) l := by
  cases l with
  | nil => simp [lastOr]
  | cons d rest =>
      have hne : (d :: rest) ≠ ([] : List Char) := by simp
      obtain ⟨y, hy⟩ := Option.isSome_iff_exists.mp (List.getLast?_isSome.mpr hne)
      simp [lastOr, List.getLast?_cons_cons, hy]

theorem scanHash_front {q : List Char} (hq : ∀ c ∈ q, c ≠ hsh) (t : List Char)
    (x : Option Char) :
    scanHash (q ++ t) x false = q ++ scanHash t (lastOr x q) false := by
  induction q generalizing x with
  | nil => simp [lastOr]
  | cons c q ih =>
      rw [List.cons_append, scanHash_cons_ne (hq c (by simp)),
        ih (fun y hy => hq y (by simp [hy])) (some c), lastOr_cons]
      rfl

/-! ## Span-sequence lemmas (normalization on balanced spans) -/

theorem plainCharB_spec {c : Char} (h : plainCharB c = true) :
    c ≠ btick ∧ c ≠ star ∧ c ≠ hsh ∧ c ≠ lf := by
  simpa [plainCharB, and_assoc] using h

theorem renderMd_cons (a : Span) (l : List Span) :
    renderMd (a :: l) = renderSpan a ++ renderMd l := by
  simp [renderMd]

theorem renderMd1_cons (a : Span) (l : List Span) :
    renderMd1 (a :: l) = renderSpan1 a ++ renderMd1 l := by
  simp [renderMd1]

theorem renderMd2_cons (a : Span) (l : List Span) :
    renderMd2 (a :: l) = renderSpan2 a ++ renderMd2 l := by
  simp [renderMd2]

theorem renderLatex_cons (a : Span) (l : List Span) :
    renderLatex (a :: l) = renderLatexSpan a ++ renderLatex l := by
  simp [renderLatex]

theorem goodSpanB_content {s : List Char}
    (h : (!s.isEmpty && s.all plainCharB) = true) :
    s ≠ [] ∧ ∀ c ∈ s, plainCharB c = true := by
  rw [Bool.and_eq_true, Bool.not_eq_true', List.isEmpty_eq_false, List.all_eq_true] at h
  exact h

theorem sepOk_tail {a : Span} {rest : List Span} (h : sepOk (a :: rest) = true) :
    sepOk rest = true := by
  cases rest with
  | nil => rfl
  | cons b r =>
      rw [show sepOk (a :: b :: r) = (sepB a b && sepOk (b :: r)) from rfl,
        Bool.and_eq_true] at h
      exact h.2

theorem sepOk_head {a b : Span} {rest : List Span} (h : sepOk (a :: b :: rest) = true) :
    sepB a b = true := by
  rw [show sepOk (a :: b :: rest) = (sepB a b && sepOk (b :: rest)) from rfl,
    Bool.and_eq_true] at h
  exact h.1

theorem sepB_italic {s : List Char} {b : Span} (h : sepB (Span.italic s) b = true) :
    (∀ u, b ≠ Span.bold u) ∧ (∀ u, b ≠ Span.italic u) := by
  cases b <;> simp [sepB] at h ⊢

theorem getLast?_ne_star_of_plain {s : List Char} (h : ∀ c ∈ s, c ≠ star) :
    s.getLast? ≠ some star := by
  induction s with
  | nil => simp
  | cons c t ih =>
      cases t with
      | nil => simpa using h c (by simp)
      | cons d r =>
          rw [List.getLast?_cons_cons]
          exact ih (fun x hx => h x (by simp [hx]))

/-- Characters of the three wrapper openers are neither delimiters nor hash. -/
theorem textttO_chars : ∀ c ∈ textttO, c ≠ btick ∧ c ≠ star ∧ c ≠ hsh := by decide

theorem textbfO_chars : ∀ c ∈ textbfO, c ≠ btick ∧ c ≠ star ∧ c ≠ hsh := by decide

theorem textitO_chars : ∀ c ∈ textitO, c ≠ btick ∧ c ≠ star ∧ c ≠ hsh := by decide

/-- Pass 1 on a well-formed span sequence rewrites exactly the code spans. -/
theorem pass1_spans {l : List Span} (hg : ∀ x ∈ l, goodSpanB x = true) :
    scanCode (renderMd l) none = renderMd1 l := by
  induction l with
  | nil => rfl
  | cons a rest ih =>
      have ha := hg a (by simp)
      have hrest := fun x hx => hg x (List.mem_cons_of_mem a hx)
      rw [renderMd_cons, renderMd1_cons]
      cases a with
      | plain c =>
          have hc := plainCharB_spec (by simpa [goodSpanB] using ha)
          show scanCode (c :: renderMd rest) none = c :: renderMd1 rest
          rw [scanCode_cons_ne hc.1, ih hrest]
      | code s =>
          obtain ⟨hne, hpl⟩ := goodSpanB_content (by simpa [goodSpanB] using ha)
          have hstep : renderSpan (Span.code s) ++ renderMd rest =
              btick :: (s ++ btick :: renderMd rest) := by
            simp [renderSpan]
          rw [hstep, show scanCode (btick :: (s ++ btick :: renderMd rest)) none =
              scanCode (s ++ btick :: renderMd rest) (some []) from by simp [scanCode],
            scanCode_content (fun c hc => (plainCharB_spec (hpl c hc)).1) [] _
              (by simpa using hne),
            ih hrest]
          simp [renderSpan1]
      | bold s =>
          obtain ⟨hne, hpl⟩ := goodSpanB_content (by simpa [goodSpanB] using ha)
          have hs' : ∀ c ∈ s, c ≠ btick := fun c hc => (plainCharB_spec (hpl c hc)).1
          have hnb : ∀ c ∈ renderSpan (Span.bold s), c ≠ btick := by
            simp only [renderSpan, List.forall_mem_cons, List.forall_mem_append,
              List.forall_mem_singleton]
            and_intros <;> first | decide | exact hs'
          rw [scanCode_front hnb, ih hrest]
          rfl
      | italic s =>
          obtain ⟨hne, hpl⟩ := goodSpanB_content (by simpa [goodSpanB] using ha)
          have hs' : ∀ c ∈ s, c ≠ btick := fun c hc => (plainCharB_spec (hpl c hc)).1
          have hnb : ∀ c ∈ renderSpan (Span.italic s), c ≠ btick := by
            simp only [renderSpan, List.forall_mem_cons, List.forall_mem_append,
              List.forall_mem_singleton]
            and_intros <;> first | decide | exact hs'
          rw [scanCode_front hnb, ih hrest]
          rfl

theorem renderMd1_head_ne_star {l : List Span} (hg : ∀ x ∈ l, goodSpanB x = true)
    (hb : ∀ s, l.head? ≠ some (Span.bold s)) (hi : ∀ s, l.head? ≠ some (Span.italic s)) :
    (renderMd1 l).head? ≠ some star := by
  cases l with
  | nil => simp [renderMd1]
  | cons a rest =>
      cases a with
      | plain c =>
          have hc := plainCharB_spec (by simpa [goodSpanB] using hg (Span.plain c) (by simp))
          rw [renderMd1_cons]
          simpa [renderSpan1] using hc.2.1
      | code s =>
          rw [renderMd1_cons]
          simp [renderSpan1, textttO, bslash]
          decide
      | bold s => exact absurd rfl (hb s)
      | italic s => exact absurd rfl (hi s)

/-- Pass 2 on the output of pass 1 rewrites exactly the bold spans. -/
theorem pass2_spans {l : List Span} (hg : ∀ x ∈ l, goodSpanB x = true)
    (hsep : sepOk l = true) :
    scanBold (renderMd1 l) none = renderMd2 l := by
  induction l with
  | nil => rfl
  | cons a rest ih =>
      have ha := hg a (by simp)
      have hrest := fun x hx => hg x (List.mem_cons_of_mem a hx)
      have hsrest := sepOk_tail hsep
      rw [renderMd1_cons, renderMd2_cons]
      cases a with
      | plain c =>
          have hc := plainCharB_spec (by simpa [goodSpanB] using ha)
          show scanBold (c :: renderMd1 rest) none = c :: renderMd2 rest
          rw [scanBold_cons_ne hc.2.1, ih hrest hsrest]
      | code s =>
          obtain ⟨hne, hpl⟩ := goodSpanB_content (by simpa [goodSpanB] using ha)
          have hs' : ∀ c ∈ s, c ≠ star := fun c hc => (plainCharB_spec (hpl c hc)).2.1
          have hns : ∀ c ∈ renderSpan1 (Span.code s), c ≠ star := by
            simp only [renderSpan1, List.forall_mem_cons, List.forall_mem_append,
              List.forall_mem_singleton]
            and_intros <;> first | decide | exact hs'
          rw [scanBold_front hns, ih hrest hsrest]
          rfl
      | bold s =>
          obtain ⟨hne, hpl⟩ := goodSpanB_content (by simpa [goodSpanB] using ha)
          have hstep : renderSpan1 (Span.bold s) ++ renderMd1 rest =
              star :: star :: (s ++ star :: star :: renderMd1 rest) := by
            simp [renderSpan1]
          rw [hstep, show scanBold (star :: star :: (s ++ star :: star :: renderMd1 rest)) none
              = scanBold (s ++ star :: star :: renderMd1 rest) (some []) from by
                simp [scanBold],
            scanBold_content
              (fun c hc => ⟨(plainCharB_spec (hpl c hc)).2.1,
                (plainCharB_spec (hpl c hc)).2.2.2⟩) [] _ (by simpa using hne),
            ih hrest hsrest]
          simp [renderSpan2]
      | italic s =>
          obtain ⟨hne, hpl⟩ := goodSpanB_content (by simpa [goodSpanB] using ha)
          obtain ⟨c0, s', hs0⟩ : ∃ c0 s', s = c0 :: s' := by
            cases s with
            | nil => exact absurd rfl hne
            | cons c0 s' => exact ⟨c0, s', rfl⟩
          have hnext : (renderMd1 rest).head? ≠ some star := by
            apply renderMd1_head_ne_star hrest
            · intro u hu
              cases rest with
              | nil => simp at hu
              | cons b r =>
                  simp only [List.head?_cons, Option.some_inj] at hu
                  exact absurd (hu ▸ sepOk_head hsep) (by simp [sepB])
            · intro u hu
              cases rest with
              | nil => simp at hu
              | cons b r =>
                  simp only [List.head?_cons, Option.some_inj] at hu
                  exact absurd (hu ▸ sepOk_head hsep) (by simp [sepB])
          have hstep : renderSpan1 (Span.italic s) ++ renderMd1 rest =
              star :: (s ++ star :: renderMd1 rest) := by
            simp [renderSpan1]
          have hns : ∀ c ∈ s, c ≠ star := fun c hc => (plainCharB_spec (hpl c hc)).2.1
          have hhead : (s ++ star :: renderMd1 rest).head? ≠ some star := by
            rw [hs0]
            simpa using (plainCharB_spec (hpl c0 (by simp [hs0]))).2.1
          rw [hstep, scanBold_star_skip hhead, scanBold_front hns,
            scanBold_star_skip hnext, ih hrest hsrest]
          simp [renderSpan2]

theorem scanItalic_front {q : List Char} (hq : ∀ c ∈ q, c ≠ star) (t : List Char) :
    ∀ p, scanItalic (q ++ t) p none = q ++ scanItalic t (lastOr p q) none := by
  induction q with
  | nil => intro p; simp [lastOr]
  | cons c q ih =>
      intro p
      rw [List.cons_append, scanItalic_cons_ne (hq c (by simp)),
        ih (fun y hy => hq y (by simp [hy])) (some c), lastOr_cons]
      rfl

theorem lastOr_concat (p : Option Char) (l : List Char) (c : Char) :
    lastOr p (l ++ [c]) = some c := by
  simp [lastOr, List.getLast?_concat]

theorem renderMd2_head_ne_star {l : List Span} (hg : ∀ x ∈ l, goodSpanB x = true)
    (hi : ∀ s, l.head? ≠ some (Span.italic s)) :
    (renderMd2 l).head? ≠ some star := by
  cases l with
  | nil => simp [renderMd2]
  | cons a rest =>
      cases a with
      | plain c =>
          have hc := plainCharB_spec (by simpa [goodSpanB] using hg (Span.plain c) (by simp))
          rw [renderMd2_cons]
          simpa [renderSpan2] using hc.2.1
      | code s =>
          rw [renderMd2_cons]
          simp [renderSpan2, textttO, bslash]
          decide
      | bold s =>
          rw [renderMd2_cons]
          simp [renderSpan2, textbfO, bslash]
          decide
      | italic s => exact absurd rfl (hi s)

/-- Pass 3 on the output of pass 2 rewrites exactly the italic spans.  The
`p` argument is the character preceding the rendered text; it matters only if
the sequence opens with an italic span. -/
theorem pass3_spans {l : List Span} (hg : ∀ x ∈ l, goodSpanB x = true)
    (hsep : sepOk l = true) :
    ∀ p, (headItalic l = true → p ≠ some star) →
      scanItalic (renderMd2 l) p none = renderLatex l := by
  induction l with
  | nil => intro p _; rfl
  | cons a rest ih =>
      have ha := hg a (by simp)
      have hrest := fun x hx => hg x (List.mem_cons_of_mem a hx)
      have hsrest := sepOk_tail hsep
      intro p hp
      rw [renderMd2_cons, renderLatex_cons]
      cases a with
      | plain c =>
          have hc := plainCharB_spec (by simpa [goodSpanB] using ha)
          show scanItalic (c :: renderMd2 rest) p none = c :: renderLatex rest
          rw [scanItalic_cons_ne hc.2.1,
            ih hrest hsrest (some c) (fun _ => by simpa using hc.2.1)]
      | code s =>
          obtain ⟨hne, hpl⟩ := goodSpanB_content (by simpa [goodSpanB] using ha)
          have hs' : ∀ c ∈ s, c ≠ star := fun c hc => (plainCharB_spec (hpl c hc)).2.1
          have hns : ∀ c ∈ renderSpan2 (Span.code s), c ≠ star := by
            simp only [renderSpan2, List.forall_mem_cons, List.forall_mem_append,
              List.forall_mem_singleton]
            and_intros <;> first | decide | exact hs'
          have hlast : lastOr p (renderSpan2 (Span.code s)) = some rb := by
            rw [show renderSpan2 (Span.code s) = (textttO ++ s) ++ [rb] from by
              simp [renderSpan2], lastOr_concat]
          rw [scanItalic_front hns, hlast,
            ih hrest hsrest (some rb) (fun _ => by decide)]
          rfl
      | bold s =>
          obtain ⟨hne, hpl⟩ := goodSpanB_content (by simpa [goodSpanB] using ha)
          have hs' : ∀ c ∈ s, c ≠ star := fun c hc => (plainCharB_spec (hpl c hc)).2.1
          have hns : ∀ c ∈ renderSpan2 (Span.bold s), c ≠ star := by
            simp only [renderSpan2, List.forall_mem_cons, List.forall_mem_append,
              List.forall_mem_singleton]
            and_intros <;> first | decide | exact hs'
          have hlast : lastOr p (renderSpan2 (Span.bold s)) = some rb := by
            rw [show renderSpan2 (Span.bold s) = (textbfO ++ s) ++ [rb] from by
              simp [renderSpan2], lastOr_concat]
          rw [scanItalic_front hns, hlast,
            ih hrest hsrest (some rb) (fun _ => by decide)]
          rfl
      | italic s =>
          obtain ⟨hne, hpl⟩ := goodSpanB_content (by simpa [goodSpanB] using ha)
          obtain ⟨c0, s', hs0⟩ : ∃ c0 s', s = c0 :: s' := by
            cases s with
            | nil => exact absurd rfl hne
            | cons c0 s' => exact ⟨c0, s', rfl⟩
          have hpstar : p ≠ some star := hp rfl
          have hs' : ∀ c ∈ s, c ≠ star := fun c hc => (plainCharB_spec (hpl c hc)).2.1
          have hslf : ∀ c ∈ s, c ≠ star ∧ c ≠ lf := fun c hc =>
            ⟨(plainCharB_spec (hpl c hc)).2.1, (plainCharB_spec (hpl c hc)).2.2.2⟩
          have hni : headItalic rest = false := by
            cases rest with
            | nil => rfl
            | cons b r =>
                cases b with
                | italic u => exact absurd (sepOk_head hsep) (by simp [sepB])
                | plain c => rfl
                | code u => rfl
                | bold u => rfl
          have hnext : (renderMd2 rest).head? ≠ some star := by
            apply renderMd2_head_ne_star hrest
            intro u hu
            cases rest with
            | nil => simp at hu
            | cons b r =>
                simp only [List.head?_cons, Option.some_inj] at hu
                subst hu
                simp [headItalic] at hni
          have hstep : renderSpan2 (Span.italic s) ++ renderMd2 rest =
              star :: (s ++ star :: renderMd2 rest) := by
            simp [renderSpan2]
          have hhead : (s ++ star :: renderMd2 rest).head? ≠ some star := by
            rw [hs0]
            simpa using (plainCharB_spec (hpl c0 (by simp [hs0]))).2.1
          rw [hstep, scanItalic_open hpstar hhead,
            scanItalic_content hslf [] (renderMd2 rest) (by simpa using hne)
              (by simpa using getLast?_ne_star_of_plain hs') hnext none,
            ih hrest hsrest (some star) (fun hh => absurd hh (by simp [hni]))]
          simp [renderLatexSpan]

theorem renderLatexSpan_no_hsh {a : Span} (ha : goodSpanB a = true) :
    ∀ c ∈ renderLatexSpan a, c ≠ hsh := by
  cases a with
  | plain c =>
      intro x hx
      simp only [renderLatexSpan, List.mem_singleton] at hx
      subst hx
      exact (plainCharB_spec (by simpa [goodSpanB] using ha)).2.2.1
  | code s =>
      obtain ⟨hne, hpl⟩ := goodSpanB_content (by simpa [goodSpanB] using ha)
      have hs' : ∀ c ∈ s, c ≠ hsh := fun c hc => (plainCharB_spec (hpl c hc)).2.2.1
      simp only [renderLatexSpan, List.forall_mem_cons, List.forall_mem_append,
        List.forall_mem_singleton]
      and_intros <;> first | decide | exact hs'
  | bold s =>
      obtain ⟨hne, hpl⟩ := goodSpanB_content (by simpa [goodSpanB] using ha)
      have hs' : ∀ c ∈ s, c ≠ hsh := fun c hc => (plainCharB_spec (hpl c hc)).2.2.1
      simp only [renderLatexSpan, List.forall_mem_cons, List.forall_mem_append,
        List.forall_mem_singleton]
      and_intros <;> first | decide | exact hs'
  | italic s =>
      obtain ⟨hne, hpl⟩ := goodSpanB_content (by simpa [goodSpanB] using ha)
      have hs' : ∀ c ∈ s, c ≠ hsh := fun c hc => (plainCharB_spec (hpl c hc)).2.2.1
      simp only [renderLatexSpan, List.forall_mem_cons, List.forall_mem_append,
        List.forall_mem_singleton]
      and_intros <;> first | decide | exact hs'

theorem renderLatex_no_hsh {l : List Span} (hg : ∀ x ∈ l, goodSpanB x = true) :
    ∀ c ∈ renderLatex l, c ≠ hsh := by
  induction l with
  | nil => simp [renderLatex]
  | cons a rest ih =>
      rw [renderLatex_cons]
      intro c hc
      rcases List.mem_append.mp hc with h | h
      · exact renderLatexSpan_no_hsh (hg a (by simp)) c h
      · exact ih (fun x hx => hg x (by simp [hx])) c h

/-! ## Retry-loop lemmas -/

/-- `resp` is a value of the `response` variable that fails the final
`if response is None or not response.text` check. -/
def respBad (resp : Option (Option String)) : Prop :=
  finishPM resp = .raised genErrMsg

theorem respBad_of_not_full {t : Option String} (h : textFull t = false) :
    respBad (some t) := by
  cases t with
  | none => rfl
  | some s =>
      have : s = "" := by simpa [textFull] using h
      simp [respBad, finishPM, this]

/-- Full characterization of the retry loop: the attempt count is bounded by
the list length, the waits before the attempts made are `2 * i` in order, and
(when the incoming `response` would fail the final check) the loop raises iff
every attempt was an exception or an empty text, returns only non-empty text,
and makes every attempt when all of them are bad. -/
theorem pmGo_spec (l : List GenAttempt) : ∀ i resp,
    (pmGo l i resp).1 ≤ l.length ∧
    (pmGo l i resp).2.1 = (List.range (pmGo l i resp).1).map (fun k => 2 * (i + k)) ∧
    (respBad resp →
      ((finishPM (pmGo l i resp).2.2 = .raised genErrMsg ↔
          ∀ a ∈ l, goodAttempt a = false) ∧
        (∀ s, finishPM (pmGo l i resp).2.2 = .returned s → s ≠ "") ∧
        ((∀ a ∈ l, goodAttempt a = false) → (pmGo l i resp).1 = l.length))) := by
  induction l with
  | nil =>
      intro i resp
      refine ⟨by simp [pmGo], by simp [pmGo], fun hb => ⟨?_, ?_, by simp [pmGo]⟩⟩
      · simpa [pmGo] using hb
      · intro s hs
        rw [show (pmGo [] i resp).2.2 = resp from rfl] at hs
        rw [hb] at hs
        exact absurd hs (by simp)
  | cons a rest ih =>
      intro i resp
      cases a with
      | err =>
          obtain ⟨ih1, ih2, ih3⟩ := ih (i + 1) resp
          refine ⟨by simpa [pmGo] using Nat.succ_le_succ ih1, ?_, fun hb => ?_⟩
          · simp only [pmGo]
            rw [ih2, List.range_succ_eq_map, List.map_cons, List.map_map]
            refine congrArg₂ _ (by simp) (List.map_congr_left fun k _ => ?_)
            simp [Function.comp]
            omega
          · obtain ⟨hiff, hret, hall⟩ := ih3 hb
            refine ⟨?_, ?_, ?_⟩
            · rw [show finishPM (pmGo (GenAttempt.err :: rest) i resp).2.2 =
                finishPM (pmGo rest (i + 1) resp).2.2 from rfl, hiff]
              simp [goodAttempt]
            · intro s hs
              exact hret s hs
            · intro hba
              have : (pmGo rest (i + 1) resp).1 = rest.length :=
                hall (fun x hx => hba x (by simp [hx]))
              simp [pmGo, this]
      | ok t =>
          by_cases hfull : textFull t = true
          · refine ⟨?_, ?_, fun hb => ⟨?_, ?_, ?_⟩⟩
            · simp [pmGo, hfull]
            · simp [pmGo, hfull, List.range_succ]
            · obtain ⟨s, hs, hsne⟩ : ∃ s, t = some s ∧ s ≠ "" := by
                cases t with
                | none => simp [textFull] at hfull
                | some s => exact ⟨s, rfl, by simpa [textFull] using hfull⟩
              constructor
              · intro hcon
                rw [show (pmGo (GenAttempt.ok t :: rest) i resp).2.2 = some t from by
                  simp [pmGo, hfull], hs] at hcon
                simp [finishPM, hsne] at hcon
              · intro hcon
                have := hcon (GenAttempt.ok t) (by simp)
                rw [show goodAttempt (GenAttempt.ok t) = textFull t from rfl, hfull] at this
                exact absurd this (by simp)
            · intro s hs
              rw [show (pmGo (GenAttempt.ok t :: rest) i resp).2.2 = some t from by
                simp [pmGo, hfull]] at hs
              obtain ⟨u, hu, hune⟩ : ∃ u, t = some u ∧ u ≠ "" := by
                cases t with
                | none => simp [textFull] at hfull
                | some u => exact ⟨u, rfl, by simpa [textFull] using hfull⟩
              subst hu
              simp only [finishPM, if_neg hune] at hs
              cases hs
              exact hune
            · intro hcon
              have := hcon (GenAttempt.ok t) (by simp)
              rw [show goodAttempt (GenAttempt.ok t) = textFull t from rfl, hfull] at this
              exact absurd this (by simp)
          · have hf : textFull t = false := by simpa using hfull
            obtain ⟨ih1, ih2, ih3⟩ := ih (i + 1) (some t)
            refine ⟨by simpa [pmGo, hf] using Nat.succ_le_succ ih1, ?_, fun hb => ?_⟩
            · simp only [pmGo, hf]
              simp only [Bool.false_eq_true, if_false]
              rw [ih2, List.range_succ_eq_map, List.map_cons, List.map_map]
              refine congrArg₂ _ (by simp) (List.map_congr_left fun k _ => ?_)
              simp [Function.comp]
              omega
            · obtain ⟨hiff, hret, hall⟩ := ih3 (respBad_of_not_full hf)
              refine ⟨?_, ?_, ?_⟩
              · rw [show finishPM (pmGo (GenAttempt.ok t :: rest) i resp).2.2 =
                  finishPM (pmGo rest (i + 1) (some t)).2.2 from by simp [pmGo, hf], hiff]
                simp [goodAttempt, hf]
              · intro s hs
                rw [show finishPM (pmGo (GenAttempt.ok t :: rest) i resp).2.2 =
                  finishPM (pmGo rest (i + 1) (some t)).2.2 from by simp [pmGo, hf]] at hs
                exact hret s hs
              · intro hba
                have : (pmGo rest (i + 1) (some t)).1 = rest.length :=
                  hall (fun x hx => hba x (by simp [hx]))
                simp [pmGo, hf, this]

/-! ## Section-loop lemmas -/

/-- The `m`-th log entry of the section loop: the snapshot is taken over the
full section list with the first `m` entries already replaced by their
normalized responses, and the committed/written texts come from the `m`-th
response. -/
theorem runLoop_log (m : Nat) : ∀ (todo : List RSection) (rs : List String)
    (done : List RSection) (cur : RSection) (r : String),
    todo[m]? = some cur → rs[m]? = some r →
    ((runLoop done todo rs).2)[m]? = some
      ⟨otherSections (done ++ (updZip (todo.take m) (rs.take m) ++ todo.drop m)) cur,
        convert_markdown_to_latex r, stripFence (convert_markdown_to_latex r)⟩ := by
  induction m with
  | zero =>
      intro todo rs done cur r htodo hrs
      cases todo with
      | nil => simp at htodo
      | cons t ts =>
          cases rs with
          | nil => simp at hrs
          | cons r0 rs' =>
              simp only [List.getElem?_cons_zero, Option.some_inj] at htodo hrs
              subst htodo
              subst hrs
              simp [runLoop, updZip]
  | succ m ih =>
      intro todo rs done cur r htodo hrs
      cases todo with
      | nil => simp at htodo
      | cons t ts =>
          cases rs with
          | nil => simp at hrs
          | cons r0 rs' =>
              have htodo' : ts[m]? = some cur := by simpa using htodo
              have hrs' : rs'[m]? = some r := by simpa using hrs
              have hrec := ih ts rs'
                (done ++ [{ t with content := convert_markdown_to_latex r0 }]) cur r htodo' hrs'
              have hshape : ((runLoop done (t :: ts) (r0 :: rs')).2)[m + 1]? =
                  ((runLoop (done ++ [{ t with content := convert_markdown_to_latex r0 }])
                    ts rs').2)[m]? := by
                simp [runLoop]
              rw [hshape, hrec]
              simp [updZip, List.append_assoc]

/-- `updZip` preserves list length. -/
theorem updZip_length : ∀ (a : List RSection) (b : List String),
    (updZip a b).length = a.length := by
  intro a
  induction a with
  | nil => intro b; cases b <;> rfl
  | cons s ss ih =>
      intro b
      cases b with
      | nil => rfl
      | cons r rs => simp [updZip, ih]

/-- `updZip` preserves descriptions of its members. -/
theorem mem_updZip_desc : ∀ (a : List RSection) (b : List String) (s : RSection),
    s ∈ updZip a b → ∃ s0 ∈ a, s.description = s0.description := by
  intro a
  induction a with
  | nil => intro b s h; cases b <;> simp [updZip] at h
  | cons s0 ss ih =>
      intro b s h
      cases b with
      | nil =>
          rw [show updZip (s0 :: ss) [] = s0 :: ss from rfl] at h
          exact ⟨s, h, rfl⟩
      | cons r rs =>
          rw [show updZip (s0 :: ss) (r :: rs) =
            { s0 with content := convert_markdown_to_latex r } :: updZip ss rs from rfl] at h
          rcases List.mem_cons.mp h with h | h
          · exact ⟨s0, by simp, by rw [h]⟩
          · obtain ⟨u, hu, he⟩ := ih rs s h
            exact ⟨u, by simp [hu], he⟩

/-- Pointwise view of `updZip`. -/
theorem updZip_getElem : ∀ (i : Nat) (a : List RSection) (b : List String)
    (s0 : RSection) (r' : String), a[i]? = some s0 → b[i]? = some r' →
    (updZip a b)[i]? = some { s0 with content := convert_markdown_to_latex r' } := by
  intro i
  induction i with
  | zero =>
      intro a b s0 r' ha hb
      cases a with
      | nil => simp at ha
      | cons x xs =>
          cases b with
          | nil => simp at hb
          | cons y ys =>
              simp only [List.getElem?_cons_zero, Option.some_inj] at ha hb
              subst ha
              subst hb
              simp [updZip]
  | succ i ih =>
      intro a b s0 r' ha hb
      cases a with
      | nil => simp at ha
      | cons x xs =>
          cases b with
          | nil => simp at hb
          | cons y ys =>
              have := ih xs ys s0 r' (by simpa using ha) (by simpa using hb)
              simpa [updZip] using this

/-- Filtering out `cur` by the dataclass inequality removes exactly the middle
occurrence when every other element has a different description. -/
theorem filter_ne_middle {A B : List RSection} {cur : RSection}
    (hA : ∀ s ∈ A, s.description ≠ cur.description)
    (hB : ∀ s ∈ B, s.description ≠ cur.description) :
    (A ++ cur :: B).filter (fun s => s != cur) = A ++ B := by
  rw [List.filter_append]
  have h1 : A.filter (fun s => s != cur) = A := by
    rw [List.filter_eq_self]
    intro s hs
    exact bne_iff_ne.mpr (fun he => hA s hs (by rw [he]))
  have h2 : (cur :: B).filter (fun s => s != cur) = B := by
    rw [List.filter_cons_of_neg (by simp)]
    rw [List.filter_eq_self]
    intro s hs
    exact bne_iff_ne.mpr (fun he => hB s hs (by rw [he]))
  rw [h1, h2]

theorem convert_data (s : String) :
    convert_markdown_to_latex s =
      String.mk (scanHash (scanItalic (scanBold (scanCode s.data none) none) none none)
        none false) := rfl

theorem mk_data (s : String) : String.mk s.data = s := rfl

theorem lastOr_none (p : List Char) : lastOr none p = p.getLast? := by
  cases h : p.getLast? <;> simp [lastOr, h]

/-! ## Claim theorems -/

/-- C5 counterexample: the source rewrites `a#b` to `a%b`, although the `#` is
not at the start of a line; the claim says such a `#` is left unchanged. -/
theorem hash_rewrite_counterexample :
    convert_markdown_to_latex "a#b" = "a%b" ∧ ("a%b" : String) ≠ "a#b" := by
  constructor
  · rfl
  · decide

/-- C5 (amended): in `convert_markdown_to_latex`, the first unescaped `#` of a
line is rewritten to `%` wherever it occurs in the line (not only when
line-leading), with the remainder of the line preserved verbatim; a `#`
preceded by a backslash is left unchanged.  Stated for single-line texts with
no backtick or asterisk (so that the first three passes do not fire). -/
theorem hash_rewrite_anywhere (p r : List Char)
    (hbt : ∀ c ∈ p ++ hsh :: r, c ≠ btick)
    (hst : ∀ c ∈ p ++ hsh :: r, c ≠ star)
    (hlf : ∀ c ∈ p ++ hsh :: r, c ≠ lf)
    (hp : hsh ∉ p) (hesc : p.getLast? ≠ some bslash) :
    convert_markdown_to_latex (String.mk (p ++ hsh :: r)) = String.mk (p ++ pct :: r) ∧
    (hsh ∉ r →
      convert_markdown_to_latex (String.mk (p ++ bslash :: hsh :: r)) =
        String.mk (p ++ bslash :: hsh :: r)) := by
  have hpn : ∀ c ∈ p, c ≠ hsh := fun c hc he => hp (he ▸ hc)
  constructor
  · have hcount : (p ++ hsh :: r).count star ≤ 1 := by
      rw [List.count_eq_zero.mpr (fun hmem => hst star hmem rfl)]
      omega
    rw [convert_data, mk_data (String.mk (p ++ hsh :: r))]
    rw [show (String.mk (p ++ hsh :: r)).data = p ++ hsh :: r from rfl]
    rw [scanCode_id hbt, scanBold_id hcount, scanItalic_id hcount none,
      scanHash_front hpn, lastOr_none, scanHash_hit hesc,
      scanHash_skipline (fun hmem => hlf lf (by simp [hmem]) rfl) none]
  · intro hr
    have hbt' : ∀ c ∈ p ++ bslash :: hsh :: r, c ≠ btick := by
      intro c hc
      rcases List.mem_append.mp hc with h | h
      · exact hbt c (by simp [h])
      · rcases List.mem_cons.mp h with h | h
        · subst h; decide
        · exact hbt c (by simp [List.mem_cons.mp h])
    have hst' : ∀ c ∈ p ++ bslash :: hsh :: r, c ≠ star := by
      intro c hc
      rcases List.mem_append.mp hc with h | h
      · exact hst c (by simp [h])
      · rcases List.mem_cons.mp h with h | h
        · subst h; decide
        · exact hst c (by simp [List.mem_cons.mp h])
    have hcount : (p ++ bslash :: hsh :: r).count star ≤ 1 := by
      rw [List.count_eq_zero.mpr (fun hmem => hst' star hmem rfl)]
      omega
    have hrn : ∀ c ∈ r, c ≠ hsh := fun c hc he => hr (he ▸ hc)
    rw [convert_data, mk_data (String.mk (p ++ bslash :: hsh :: r))]
    rw [show (String.mk (p ++ bslash :: hsh :: r)).data = p ++ bslash :: hsh :: r from rfl]
    rw [scanCode_id hbt', scanBold_id hcount, scanItalic_id hcount none,
      scanHash_front hpn, scanHash_cons_ne (by decide), scanHash_escaped,
      scanHash_id hrn (some hsh)]

/-- C5 witness: `x#y` becomes `x%y` by the amended rule. -/
theorem hash_rewrite_anywhere_witness :
    convert_markdown_to_latex (String.mk (['x'] ++ hsh :: ['y'])) =
      String.mk (['x'] ++ pct :: ['y']) :=
  (hash_rewrite_anywhere ['x'] ['y'] (by decide) (by decide) (by decide) (by decide)
    (by decide)).1

/-- C7: `convert_markdown_to_latex` is a total function of its input (it is a
composition of total scanners), and an unmatched delimiter passes through
unchanged: any input with exactly one asterisk and no backtick or hash is
returned verbatim. -/
theorem lone_star_passthrough (s : String) (hbt : ∀ c ∈ s.data, c ≠ btick)
    (hh : ∀ c ∈ s.data, c ≠ hsh) (hst : s.data.count star = 1) :
    convert_markdown_to_latex s = s := by
  have hcount : s.data.count star ≤ 1 := le_of_eq hst
  rw [convert_data, scanCode_id hbt, scanBold_id hcount, scanItalic_id hcount none,
    scanHash_id hh none, mk_data]

/-- C7 witness at the spec's example of a lone `*`. -/
theorem lone_star_passthrough_witness :
    convert_markdown_to_latex "a*b" = "a*b" :=
  lone_star_passthrough "a*b" (by decide) (by decide) (by decide)

/-- C8: on strings with no backtick, asterisk or hash (already-converted
markup), `convert_markdown_to_latex` is the identity, hence idempotent. -/
theorem convert_idempotent_on_converted (s : String)
    (h : ∀ c ∈ s.data, c ≠ btick ∧ c ≠ star ∧ c ≠ hsh) :
    convert_markdown_to_latex s = s ∧
    convert_markdown_to_latex (convert_markdown_to_latex s) = convert_markdown_to_latex s := by
  have hcount : s.data.count star ≤ 1 := by
    rw [List.count_eq_zero.mpr (fun hmem => (h star hmem).2.1 rfl)]
    omega
  have hid : convert_markdown_to_latex s = s := by
    rw [convert_data, scanCode_id (fun c hc => (h c hc).1), scanBold_id hcount,
      scanItalic_id hcount none, scanHash_id (fun c hc => (h c hc).2.2) none, mk_data]
  exact ⟨hid, by rw [hid, hid]⟩

/-- C8 witness on a converted string. -/
theorem convert_idempotent_on_converted_witness :
    convert_markdown_to_latex "\\textbf\x7bhi\x7d" = "\\textbf\x7bhi\x7d" ∧
    convert_markdown_to_latex (convert_markdown_to_latex "\\textbf\x7bhi\x7d") =
      convert_markdown_to_latex "\\textbf\x7bhi\x7d" :=
  convert_idempotent_on_converted "\\textbf\x7bhi\x7d" (by decide)

/-- C6 counterexample: the sequence italic `a` directly followed by bold `b`
renders as `*a***b**`, whose conversion is `\textit{a\textbf{}b}` rather than
one wrapper per span with verbatim contents (`\textit{a}\textbf{b}`). -/
theorem spans_counterexample_adjacent :
    (∀ x ∈ [Span.italic ['a'], Span.bold ['b']], goodSpanB x = true) ∧
    String.mk (renderMd [Span.italic ['a'], Span.bold ['b']]) = "*a***b**" ∧
    String.mk (renderLatex [Span.italic ['a'], Span.bold ['b']]) =
      "\\textit\x7ba\x7d\\textbf\x7bb\x7d" ∧
    convert_markdown_to_latex "*a***b**" = "\\textit\x7ba\\textbf\x7b\x7db\x7d" ∧
    convert_markdown_to_latex (String.mk (renderMd [Span.italic ['a'], Span.bold ['b']])) ≠
      String.mk (renderLatex [Span.italic ['a'], Span.bold ['b']]) := by
  refine ⟨by decide, by decide, by decide, rfl, by decide⟩

/-- C6 (amended): for every sequence of balanced, non-nested `**bold**`,
`*italic*` and backtick code spans over plain single-line content, in which no
italic span is directly followed by another asterisk-delimited span,
`convert_markdown_to_latex` produces exactly one corresponding LaTeX wrapper
per span with the span's content verbatim inside it. -/
theorem spans_convert_correct (l : List Span) (hg : ∀ x ∈ l, goodSpanB x = true)
    (hsep : sepOk l = true) :
    convert_markdown_to_latex (String.mk (renderMd l)) = String.mk (renderLatex l) := by
  rw [convert_data]
  rw [show (String.mk (renderMd l)).data = renderMd l from rfl,
    pass1_spans hg, pass2_spans hg hsep, pass3_spans hg hsep none (fun _ => by simp),
    scanHash_id (renderLatex_no_hsh hg) none]

/-- C6 witness on a mixed sequence. -/
theorem spans_convert_correct_witness :
    convert_markdown_to_latex
        (String.mk (renderMd [Span.bold ['h', 'i'], Span.plain ' ', Span.italic ['o', 'k'],
          Span.code ['c'], Span.plain '!'])) =
      String.mk (renderLatex [Span.bold ['h', 'i'], Span.plain ' ', Span.italic ['o', 'k'],
        Span.code ['c'], Span.plain '!']) :=
  spans_convert_correct _ (by decide) (by decide)

/-- C1 counterexample: for the run with one section and the raw response
`"```latex\nhello\n```"`, the content committed to the in-memory section is
the normalized but unstripped text (the fence backticks are still there,
mangled by the code-span pass), not the stripped-then-normalized `"hello"`
that the claim describes. -/
theorem commit_keeps_fence_counterexample :
    (runLoop [] [⟨"experience", "base"⟩] ["```latex\nhello\n```"]).1 =
      [⟨"experience", "``\\texttt\x7blatex\nhello\n\x7d``"⟩] ∧
    convert_markdown_to_latex (stripFence "```latex\nhello\n```") = "hello" ∧
    ("``\\texttt\x7blatex\nhello\n\x7d``" : String) ≠ "hello" := by
  refine ⟨by decide, by decide, by decide⟩

/-- C1 (amended): the orchestrator does not strip the raw response before
processing.  For every successful step of the section loop, the content
committed to the section's in-memory state is the normalized, *unstripped*
response `convert_markdown_to_latex r`, and the first and last lines are
stripped only from that normalized text when writing the section's output
file. -/
theorem commit_normalized_unstripped (secs : List RSection) (rs : List String) (m : Nat)
    (cur : RSection) (r : String) (e : StepLog)
    (h1 : secs[m]? = some cur) (h2 : rs[m]? = some r)
    (h3 : ((runLoop [] secs rs).2)[m]? = some e) :
    e.committed = convert_markdown_to_latex r ∧
    e.written = stripFence (convert_markdown_to_latex r) := by
  have h := runLoop_log m secs rs [] cur r h1 h2
  rw [h3, Option.some_inj] at h
  exact ⟨by rw [h], by rw [h]⟩

/-- C1 witness on a concrete two-section run. -/
theorem commit_normalized_unstripped_witness :
    (⟨"B", "x", ""⟩ : StepLog).committed = convert_markdown_to_latex "x" ∧
    (⟨"B", "x", ""⟩ : StepLog).written = stripFence (convert_markdown_to_latex "x") :=
  commit_normalized_unstripped [⟨"experience", "A"⟩, ⟨"projects", "B"⟩] ["x", "y"] 0
    ⟨"experience", "A"⟩ "x" ⟨"B", "x", ""⟩ (by decide) (by decide) (by decide)

/-- C2: `prompt_model` makes at most `max_tries` attempts; it raises the
generation error iff every attempt raised or returned empty/absent text (and
then all `max_tries` attempts were made); when it returns normally the text is
non-empty. -/
theorem prompt_model_retry_contract (b : Nat → GenAttempt) :
    (prompt_model b).1 ≤ max_tries ∧
    ((prompt_model b).2.2 = PMResult.raised genErrMsg ↔
      ∀ i < max_tries, goodAttempt (b i) = false) ∧
    (∀ s, (prompt_model b).2.2 = PMResult.returned s → s ≠ "") ∧
    ((prompt_model b).2.2 = PMResult.raised genErrMsg → (prompt_model b).1 = max_tries) := by
  obtain ⟨h1, _, h3⟩ := pmGo_spec ((List.range max_tries).map b) 0 none
  obtain ⟨hiff, hret, hall⟩ := h3 rfl
  have hn : (prompt_model b).1 = (pmGo ((List.range max_tries).map b) 0 none).1 := rfl
  have hres : (prompt_model b).2.2 =
      finishPM (pmGo ((List.range max_tries).map b) 0 none).2.2 := rfl
  have htrans : (∀ a ∈ (List.range max_tries).map b, goodAttempt a = false) ↔
      ∀ i < max_tries, goodAttempt (b i) = false := by
    constructor
    · intro h i hi
      exact h (b i) (List.mem_map_of_mem b (List.mem_range.mpr hi))
    · intro h a ha
      obtain ⟨i, hi, rfl⟩ := List.mem_map.mp ha
      exact h i (List.mem_range.mp hi)
  refine ⟨?_, ?_, ?_, ?_⟩
  · rw [hn]
    simpa using h1
  · rw [hres, hiff]
    exact htrans
  · intro s hs
    rw [hres] at hs
    exact hret s hs
  · intro hr
    rw [hres, hiff] at hr
    rw [hn, hall hr]
    simp

/-- C2 witness. -/
theorem prompt_model_retry_contract_witness :
    (prompt_model (fun _ => GenAttempt.err)).1 ≤ max_tries :=
  (prompt_model_retry_contract (fun _ => GenAttempt.err)).1

/-- C4: the wait before attempt `i` (0-indexed) is `2 * i`: the waits actually
performed are `[0, 2, 4, ...]` up to the number of attempts made; and with the
retry bound set to 3 and every attempt returning an empty text, exactly 3
attempts are made, with waits 0, 2, 4, followed by the generation error. -/
theorem prompt_model_backoff_schedule :
    (∀ b : Nat → GenAttempt, (prompt_model b).2.1 =
      (List.range (prompt_model b).1).map (fun k => 2 * k)) ∧
    prompt_model_with 3 (fun _ => GenAttempt.ok (some "")) =
      (3, [0, 2, 4], PMResult.raised genErrMsg) := by
  constructor
  · intro b
    have h := (pmGo_spec ((List.range max_tries).map b) 0 none).2.1
    rw [show (prompt_model b).2.1 = (pmGo ((List.range max_tries).map b) 0 none).2.1 from rfl,
      show (prompt_model b).1 = (pmGo ((List.range max_tries).map b) 0 none).1 from rfl, h]
    exact List.map_congr_left fun k _ => by omega
  · decide

/-- C4 witness. -/
theorem prompt_model_backoff_schedule_witness :
    (prompt_model (fun _ => GenAttempt.err)).2.1 =
      (List.range (prompt_model (fun _ => GenAttempt.err)).1).map (fun k => 2 * k) :=
  prompt_model_backoff_schedule.1 (fun _ => GenAttempt.err)

/-- C3: in every run, the "other sections" snapshot built at step `m` is the
double-newline join, in the fixed section order, of the first `m` sections
with their post-regeneration contents and the remaining sections (beyond `m`)
with their baselines, the current section excluded; in particular for every
`i < m` the snapshot contains section `i`'s regenerated content
`convert_markdown_to_latex rᵢ`, not its baseline. -/
theorem snapshot_sees_updated_sections (secs : List RSection) (rs : List String) (m : Nat)
    (cur : RSection) (r : String) (e : StepLog)
    (hd : List.Pairwise (fun a b => a.description ≠ b.description) secs)
    (h1 : secs[m]? = some cur) (h2 : rs[m]? = some r)
    (h3 : ((runLoop [] secs rs).2)[m]? = some e) :
    e.snapshot = String.mk (joinSep [lf, lf]
      ((updZip (secs.take m) (rs.take m) ++ secs.drop (m + 1)).map (·.content.data))) ∧
    (∀ i r', i < m → rs[i]? = some r' → ∃ s0, secs[i]? = some s0 ∧
      (updZip (secs.take m) (rs.take m) ++ secs.drop (m + 1))[i]? =
        some { s0 with content := convert_markdown_to_latex r' }) := by
  have hm : m < secs.length := by
    by_contra hc
    push_neg at hc
    rw [List.getElem?_eq_none hc] at h1
    exact absurd h1 (by simp)
  have hcur : secs[m] = cur := by
    have h := List.getElem?_eq_getElem hm
    rw [h1] at h
    exact (Option.some_inj.mp h).symm
  have hdrop : secs.drop m = cur :: secs.drop (m + 1) := by
    rw [List.drop_eq_getElem_cons hm, hcur]
  have hsplit : secs.take m ++ secs.drop m = secs := List.take_append_drop m secs
  have hdsplit : List.Pairwise (fun a b => a.description ≠ b.description)
      (secs.take m ++ secs.drop m) := by
    rw [hsplit]
    exact hd
  obtain ⟨hd1, hd2, hd3⟩ := List.pairwise_append.mp hdsplit
  have hA : ∀ s ∈ updZip (secs.take m) (rs.take m), s.description ≠ cur.description := by
    intro s hs
    obtain ⟨s0, hs0, he⟩ := mem_updZip_desc _ _ s hs
    rw [he]
    exact hd3 s0 hs0 cur (by rw [hdrop]; simp)
  have hB : ∀ s ∈ secs.drop (m + 1), s.description ≠ cur.description := by
    rw [hdrop] at hd2
    intro s hs
    exact Ne.symm ((List.pairwise_cons.mp hd2).1 s hs)
  have hlog := runLoop_log m secs rs [] cur r h1 h2
  rw [h3, Option.some_inj] at hlog
  constructor
  · rw [hlog]
    show otherSections ([] ++ (updZip (secs.take m) (rs.take m) ++ secs.drop m)) cur = _
    rw [List.nil_append, hdrop, otherSections, filter_ne_middle hA hB]
  · intro i r' hi hir
    have hilen : i < secs.length := lt_trans hi hm
    have hAlen : (updZip (secs.take m) (rs.take m)).length = m := by
      rw [updZip_length, List.length_take]
      omega
    refine ⟨secs[i], ?_, ?_⟩
    · rw [List.getElem?_eq_getElem hilen]
    · rw [List.getElem?_append_left (by omega)]
      apply updZip_getElem
      · rw [List.getElem?_take_of_lt hi]
        exact List.getElem?_eq_getElem hilen
      · rw [List.getElem?_take_of_lt hi]
        exact hir

/-- C3 witness on a concrete two-section run: the snapshot of step 1 is built
from section 0's regenerated content. -/
theorem snapshot_sees_updated_sections_witness :
    (⟨"x", "y", ""⟩ : StepLog).snapshot = String.mk (joinSep [lf, lf]
      ((updZip (([⟨"experience", "A"⟩, ⟨"projects", "B"⟩] : List RSection).take 1)
          (["x", "y"].take 1) ++
        ([⟨"experience", "A"⟩, ⟨"projects", "B"⟩] : List RSection).drop 2).map
          (·.content.data))) :=
  (snapshot_sees_updated_sections [⟨"experience", "A"⟩, ⟨"projects", "B"⟩] ["x", "y"] 1
    ⟨"projects", "B"⟩ "y" ⟨"x", "y", ""⟩
    (by simp [List.pairwise_cons]) (by decide) (by decide) (by decide)).1

/-- C9: `compile_latex` binds the `os.system` exit status to a variable named
`success` and returns `None` under `if not success`, i.e. exactly when the
toolchain exits with status 0 (success); on a nonzero (failing) exit status it
returns the `.pdf` path.  This is the opposite of the claimed (and documented)
behaviour. -/
theorem compile_latex_inverted :
    compile_latex "resume.tex" 0 = none ∧
    compile_latex "resume.tex" 1 = some "resume.pdf" := by
  constructor
  · rfl
  · decide

/-- C10: the cache refresh is not atomic.  With a URL argument, the old cache
is deleted and the cache file is created empty before the fetch runs, so a
raising fetch halts the run leaving an empty cache file behind; a later
argument-less run accepts that empty file as an existing cache and proceeds
with an empty listing. -/
theorem listing_refresh_not_atomic (url old : String)
    (hu : "http".data.isPrefixOf url.data = true) :
    refreshListing (some url) .raises (some old) = (some "", .errFetch) ∧
    (∀ f, refreshListing none f (some "") = (some "", .proceed "")) := by
  constructor
  · simp [refreshListing, hu]
  · intro f
    rfl

/-- C10 witness. -/
theorem listing_refresh_not_atomic_witness :
    refreshListing (some "http://jobs") .raises (some "old listing") =
      (some "", .errFetch) :=
  (listing_refresh_not_atomic "http://jobs" "old listing" (by decide)).1

end ResumeCustomizer
